import Mathlib

/-!
# Verification of the MinHash near-duplicate detector (`src/minhash.py`)

Shallow embedding of the program's operations, followed by theorems settling
the specification claims.  Python sequences become `List`s, Python integers
become `Nat`/`Int`, numpy float scores become exact rationals `ℚ`, and the
random sample drawn by `random.sample` is passed in explicitly as a list
together with a predicate describing what `random.sample` can return.
-/

namespace MinHash

set_option maxRecDepth 16000

/- `Batteries` marks the arithmetic of `Rat` irreducible, which blocks
kernel evaluation of concrete rational scores; restore reducibility so
that concrete runs of the embedded program can be checked by `decide`. -/
attribute [local semireducible] Rat.mul Rat.inv Rat.add Rat.sub

/-- The last `c` elements of a list.  A `collections.deque` with
`maxlen = c` holds exactly the last `c` elements appended to it. -/
def lastN (c : Nat) (l : List String) : List String :=
  l.drop (l.length - c)

/-- Appending one element to a `deque` with `maxlen = count`: the new
element goes on the right and, when the deque is full, the leftmost
element is discarded. -/
def dequeAppend (count : Nat) (memory : List String) (w : String) : List String :=
  lastN count (memory ++ [w])

/-- The Adler-32 checksum of a string's UTF-8 bytes
(`zlib.adler32(x.encode())`, the default `mapper` of `generate_shingles`):
running sums `a = 1 + Σ bytes (mod 65521)` and `b = Σ partial a (mod 65521)`,
packed as `b * 65536 + a`. -/
def adler32 (s : String) : Nat :=
  let r := (s.data.flatMap String.utf8EncodeChar).foldl
    (fun (p : Nat × Nat) (byte : UInt8) =>
      let a := (p.1 + byte.toNat) % 65521
      (a, (p.2 + a) % 65521))
    (1, 0)
  r.2 * 65536 + r.1

/-- The loop of `generate_shingles`: for each remaining word, append it to
the `deque` (window) and yield the checksum of the space-joined window. -/
def shingleLoop (count : Nat) (mapper : String → Nat) :
    List String → List String → List Nat
  | _memory, [] => []
  | memory, w :: ws =>
      let m := dequeAppend count memory w
      mapper (String.intercalate " " m) :: shingleLoop count mapper m ws

/-- Embeds `generate_shingles(words, count, mapper)` (source defaults:
`count = 2`, `mapper = zlib.adler32` of the encoded window, i.e. `adler32`):
the deque starts as `words[:count]`, one checksum is yielded immediately,
then the loop runs over `words[count:]`.  The generator's outputs are
materialized as a list, in yield order. -/
def generate_shingles (words : List String) (count : Nat) (mapper : String → Nat) :
    List Nat :=
  mapper (String.intercalate " " (words.take count)) ::
    shingleLoop count mapper (words.take count) (words.drop count)

/-- One linear hash function `f(x) = (a * x + b) % c` (the closure built by
`func(a, b, c)` inside `generate_hash_funcs`). -/
structure HashFunc where
  a : Nat
  b : Nat
  c : Nat
deriving DecidableEq, Repr

/-- Apply a `HashFunc`: `(a * x + b) % c`. -/
def HashFunc.apply (f : HashFunc) (x : Nat) : Nat :=
  (f.a * x + f.b) % f.c

/-- The population that `generate_hash_funcs` passes to `random.sample`:
`range(2**32 - 1)`, i.e. the `2^32 - 1` integers below `2^32 - 1`.  Note
that the function's `max` parameter does not appear here: the source's
sampling line uses the literal `2**32 - 1` and never reads `max`. -/
def samplePopulation : Nat := 2 ^ 32 - 1

/-- What `random.sample(range(n), k)` can return: `k` pairwise-distinct
values, each below `n` (sampling without replacement).  `random.sample`
raises `ValueError` exactly when `k > n`. -/
def validSample (n k : Nat) (l : List Nat) : Prop :=
  l.length = k ∧ l.Nodup ∧ ∀ x ∈ l, x < n

/-- Pair up consecutive elements of a list. -/
def pairUp : List Nat → List (Nat × Nat)
  | x :: y :: rest => (x, y) :: pairUp rest
  | _ => []

/-- Embeds `generate_hash_funcs(count, max, prime)` (source defaults:
`max = 2**32 - 1`, `prime = 4294969733`) applied to a realized random
sample `coeffs` (the list returned by
`random.sample(range(2**32 - 1), count * 2)`; see `samplePopulation` and
`validSample`).  The comprehension pops two coefficients off the END of
`coeffs` per hash function, so the functions are built from the sampled
values in reverse order, paired consecutively.  The `max` parameter is
unused by the source body and is kept here to mirror the signature. -/
def generate_hash_funcs (coeffs : List Nat) (count : Nat) (max : Nat) (prime : Nat) :
    List HashFunc :=
  ((pairUp coeffs.reverse).take count).map (fun p => ⟨p.1, p.2, prime⟩)

/-- Embeds `calculate_signature(shingles, hash_funcs)`:
`[min(map(hash, shingles)) for hash in hash_funcs]`.  Python's `min` of an
empty sequence raises `ValueError`, modelled as `none`; each hash function
is an arbitrary `Nat → Nat` (the source passes the closures from
`generate_hash_funcs`, i.e. `HashFunc.apply`). -/
def calculate_signature (shingles : List Nat) (hash_funcs : List (Nat → Nat)) :
    Option (List Nat) :=
  match hash_funcs with
  | [] => some []
  | h :: rest =>
      match (shingles.map h).min?, calculate_signature shingles rest with
      | some m, some sig => some (m :: sig)
      | _, _ => none

/-- `np.count_nonzero(a == b)` for two equal-length 1-D integer arrays:
the number of positions where the entries coincide. -/
def countEq (a b : List Nat) : Nat :=
  (List.zipWith (fun x y => decide (x = y)) a b).count true

/-- Embeds `approx_jaccard_score(a, b)` on two 1-D signatures:
`np.count_nonzero(a == b) / len(a)`, as an exact rational.  (Python raises
`ZeroDivisionError` when `len(a) = 0`; rational division by zero yields `0`
instead, and every theorem below that touches this case assumes a positive
length, as the program guarantees `len(a) = 42`.) -/
def approx_jaccard_score (a b : List Nat) : ℚ :=
  (countEq a b : ℚ) / (a.length : ℚ)

/-- Embeds the score-matrix comprehension of `__main__`:
`[approx_jaccard_score(a, sigs[i+1:], 1) for i, a in enumerate(sigs)]`.
Row `i` holds the scores of document `i` against documents `i+1 … n-1`
(the strict upper triangle). -/
def scoreRows (sigs : List (List Nat)) : List (List ℚ) :=
  sigs.enum.map (fun ia => (sigs.drop (ia.1 + 1)).map (fun b => approx_jaccard_score ia.2 b))

/-- Python/numpy sequence indexing with a possibly negative index: a
negative index is first shifted by the length (wraparound); an index still
out of range raises `IndexError`, modelled as `none`. -/
def npIndex (row : List ℚ) (idx : Int) : Option ℚ :=
  let j : Int := if idx < 0 then idx + row.length else idx
  if 0 ≤ j ∧ j < (row.length : Int) then some (row.getD j.toNat 0) else none

/-- The bin edges of `__main__`: `(0, .1, …, .9, 1, 42)` (the `42` sentinel
makes the last real bin `[1, 42]` capture scores equal to `1.0`). -/
def binsList : List ℚ :=
  [0, 1/10, 2/10, 3/10, 4/10, 5/10, 6/10, 7/10, 8/10, 9/10, 1, 42]

/-- The keys of the `hist` dictionary of `__main__`:
`{0: 0, .1: 0, …, .9: 0, 1: 0}`. -/
def histKeys : List ℚ :=
  [0, 1/10, 2/10, 3/10, 4/10, 5/10, 6/10, 7/10, 8/10, 9/10, 1]

/-- numpy `astype(int)`: truncation toward zero. -/
def npTruncInt (q : ℚ) : Int :=
  if 0 ≤ q then ⌊q⌋ else ⌈q⌉

/-- `(row * 10).astype(int) / 10` applied to one score row: each score is
scaled by 10, truncated to an integer, and divided back by 10. -/
def binValues (row : List ℚ) : List ℚ :=
  row.map (fun s => ((npTruncInt (s * 10) : ℤ) : ℚ) / 10)

/-- Membership of a value in bin `j` of `np.histogram`: every bin is
half-open `[bins[j], bins[j+1])` except the last, which is closed. -/
def binPred (bins : List ℚ) (j : Nat) (v : ℚ) : Bool :=
  decide (bins.getD j 0 ≤ v) &&
    (if j + 2 = bins.length then decide (v ≤ bins.getD (j+1) 0)
     else decide (v < bins.getD (j+1) 0))

/-- `np.histogram(values, bins)`: for `m+1` bin edges, the `m` counts of
values falling in each bin (values outside `[bins[0], bins[m]]` are not
counted). -/
def histogramCounts (values : List ℚ) (bins : List ℚ) : List Nat :=
  (List.range (bins.length - 1)).map (fun j => values.countP (binPred bins j))

/-- `hist[key] += c` on the dictionary modelled as an association list. -/
def histUpdate (h : List (ℚ × Nat)) (key : ℚ) (c : Nat) : List (ℚ × Nat) :=
  h.map (fun p => if p.1 = key then (p.1, p.2 + c) else p)

/-- The histogram pass of `__main__`: starting from the zeroed `hist`
dictionary, for each score row compute `np.histogram` of the truncated
scores against `binsList` and add count `i` to bucket `bins[i]`. -/
def histogramPass (rows : List (List ℚ)) : List (ℚ × Nat) :=
  rows.foldl
    (fun h row =>
      (binsList.zip (histogramCounts (binValues row) binsList)).foldl
        (fun h2 pc => histUpdate h2 pc.1 pc.2) h)
    (histKeys.map (fun k => (k, 0)))

/-- The sum of all histogram bucket counts. -/
def histTotal (h : List (ℚ × Nat)) : Nat :=
  (h.map Prod.snd).sum

/-- Embeds the candidate-pair report loop of `__main__`: for `i` in
`range(len(scores))` and `j` in `range(i+1, len(scores))`, the pair
`(ids[i], ids[j])` is printed when
`threshold < scores[i][j-i-1] and scores[i][j-i-1] < 1`.  The printed
pairs are collected in print order. -/
def report (ids : List String) (scores : List (List ℚ)) (threshold : ℚ) :
    List (String × String) :=
  (List.range scores.length).flatMap (fun i =>
    (List.range' (i+1) (scores.length - (i+1))).filterMap (fun j =>
      if threshold < (scores.getD i []).getD (j - i - 1) 0 ∧
          (scores.getD i []).getD (j - i - 1) 0 < 1
      then some (ids.getD i "", ids.getD j "") else none))

/-! ## Basic lemmas about the similarity estimator -/

/-- `countEq` counts exactly the indices at which the two lists agree. -/
lemma countEq_eq_card (a b : List Nat) (h : a.length = b.length) :
    countEq a b =
      ((Finset.range a.length).filter (fun i => a.getD i 0 = b.getD i 0)).card := by
  induction a generalizing b with
  | nil => simp [countEq]
  | cons x a ih =>
    cases b with
    | nil => simp at h
    | cons y b =>
      have h' : a.length = b.length := by simpa using h
      have hcons : countEq (x :: a) (y :: b) = countEq a b + (if x = y then 1 else 0) := by
        simp only [countEq, List.zipWith_cons_cons, List.count_cons]
        by_cases hxy : x = y <;> simp [hxy]
      have key : (Finset.filter (fun i => (x :: a).getD i 0 = (y :: b).getD i 0)
          (Finset.range (a.length + 1))).card
          = (Finset.filter (fun i => a.getD i 0 = b.getD i 0) (Finset.range a.length)).card
            + (if x = y then 1 else 0) := by
        rw [Finset.card_filter, Finset.card_filter, Finset.sum_range_succ']
        simp [List.getD_cons_succ, List.getD_cons_zero]
      rw [hcons, ih b h', List.length_cons, key]

/-- The match count never exceeds the length of the first list. -/
lemma countEq_le_length (a b : List Nat) : countEq a b ≤ a.length := by
  calc countEq a b ≤ (List.zipWith (fun x y => decide (x = y)) a b).length :=
        List.count_le_length _ _
    _ ≤ a.length := by rw [List.length_zipWith]; exact Nat.min_le_left _ _

/-- A list agrees with itself everywhere. -/
lemma countEq_self (a : List Nat) : countEq a a = a.length := by
  induction a with
  | nil => rfl
  | cons x a ih =>
    simp only [countEq, List.zipWith_cons_cons, List.count_cons] at *
    simp [ih]

/-- C1: for every two signatures `a` and `b` of equal length `k > 0`, the
Similarity Estimator `approx_jaccard_score` returns exactly the number of
indices `i` with `a[i] = b[i]` divided by `k`, and this value lies in
`[0, 1]`.  (`k = 0` would divide by zero in the source.) -/
theorem similarity_estimator_exact_fraction (a b : List Nat) (k : Nat)
    (ha : a.length = k) (hb : b.length = k) (hk : 0 < k) :
    approx_jaccard_score a b =
      (((Finset.range k).filter (fun i => a.getD i 0 = b.getD i 0)).card : ℚ) / (k : ℚ) ∧
    0 ≤ approx_jaccard_score a b ∧ approx_jaccard_score a b ≤ 1 := by
  have hcard := countEq_eq_card a b (by rw [ha, hb])
  have hkq : (0 : ℚ) < (k : ℚ) := by exact_mod_cast hk
  refine ⟨?_, ?_, ?_⟩
  · rw [approx_jaccard_score, hcard, ha]
  · exact div_nonneg (by positivity) (by rw [ha]; positivity)
  · rw [approx_jaccard_score, ha]
    rw [div_le_one hkq]
    have : countEq a b ≤ k := ha ▸ countEq_le_length a b
    exact_mod_cast this

theorem similarity_estimator_exact_fraction_witness :
    approx_jaccard_score [1, 2, 3] [1, 5, 3] =
      (((Finset.range 3).filter
        (fun i => ([1, 2, 3] : List Nat).getD i 0 = ([1, 5, 3] : List Nat).getD i 0)).card : ℚ)
        / (3 : ℚ) ∧
    0 ≤ approx_jaccard_score [1, 2, 3] [1, 5, 3] ∧
    approx_jaccard_score [1, 2, 3] [1, 5, 3] ≤ 1 :=
  similarity_estimator_exact_fraction [1, 2, 3] [1, 5, 3] 3 rfl rfl (by decide)

/-! ## The signature builder -/

/-- Python's `min` of a nonempty list: it is a member and a lower bound. -/
lemma min?_spec {l : List Nat} (h : l ≠ []) :
    ∃ m, l.min? = some m ∧ m ∈ l ∧ ∀ x ∈ l, m ≤ x := by
  cases l with
  | nil => exact absurd rfl h
  | cons x xs =>
    have hs : (x :: xs).min?.isSome := List.isSome_min?_of_mem (List.mem_cons_self x xs)
    rcases Option.isSome_iff_exists.mp hs with ⟨m, hm⟩
    refine ⟨m, hm, List.min?_mem (fun a b => min_choice a b) hm, ?_⟩
    intro y hy
    exact (List.le_min?_iff (fun a b c => le_min_iff) hm).mp (le_refl m) y hy

/-- On a nonempty shingle list, `calculate_signature` succeeds, returns one
slot per hash function, and slot `i` is the minimum of hash function `i`
over all shingles (stated via `zip`: each slot paired with its function is
an attained lower bound of that function over the shingles). -/
lemma calculate_signature_spec (shingles : List Nat) (hash_funcs : List (Nat → Nat))
    (hsh : shingles ≠ []) :
    ∃ sig, calculate_signature shingles hash_funcs = some sig ∧
      sig.length = hash_funcs.length ∧
      ∀ p ∈ sig.zip hash_funcs, p.1 ∈ shingles.map p.2 ∧ ∀ s ∈ shingles, p.1 ≤ p.2 s := by
  induction hash_funcs with
  | nil => exact ⟨[], rfl, rfl, by simp⟩
  | cons h rest ih =>
    rcases ih with ⟨sig, hsig, hlen, hzip⟩
    have hmap : shingles.map h ≠ [] := by simpa using hsh
    rcases min?_spec hmap with ⟨m, hm, hmem, hle⟩
    refine ⟨m :: sig, ?_, by simpa using hlen, ?_⟩
    · simp only [calculate_signature, hm, hsig]
    · intro p hp
      rcases List.mem_cons.mp (by simpa [List.zip_cons_cons] using hp) with hp1 | hp2
      · subst hp1
        exact ⟨hmem, fun s hs => hle (h s) (List.mem_map_of_mem h hs)⟩
      · exact hzip p hp2

/-- C2: for every hash family of size `k` and every document's shingle
sequence (as produced by the Shingle Extractor, for any window size and
checksum), `calculate_signature` returns a signature of length exactly
`k`, regardless of document length, and slot `i` holds the minimum over
all shingles `s` of the document of `HashFunction[i](s)`. -/
theorem signature_builder_length_and_min_slots (words : List String) (count : Nat)
    (mapper : String → Nat) (hash_funcs : List (Nat → Nat)) :
    ∃ sig, calculate_signature (generate_shingles words count mapper) hash_funcs = some sig ∧
      sig.length = hash_funcs.length ∧
      ∀ p ∈ sig.zip hash_funcs,
        p.1 ∈ (generate_shingles words count mapper).map p.2 ∧
        ∀ s ∈ generate_shingles words count mapper, p.1 ≤ p.2 s :=
  calculate_signature_spec _ _ (by simp [generate_shingles])

/-- C9: two documents with identical token sequences yield, under any
nonempty hash family, signatures whose similarity is exactly `1`.  (An
empty hash family would give zero-length signatures, whose comparison
divides by zero in the source.) -/
theorem identical_documents_similarity_one (words1 words2 : List String) (count : Nat)
    (mapper : String → Nat) (hash_funcs : List (Nat → Nat))
    (hw : words1 = words2) (hk : hash_funcs ≠ []) :
    ∃ sig1 sig2,
      calculate_signature (generate_shingles words1 count mapper) hash_funcs = some sig1 ∧
      calculate_signature (generate_shingles words2 count mapper) hash_funcs = some sig2 ∧
      approx_jaccard_score sig1 sig2 = 1 := by
  subst hw
  rcases calculate_signature_spec (generate_shingles words1 count mapper) hash_funcs
    (by simp [generate_shingles]) with ⟨sig, hsig, hlen, -⟩
  refine ⟨sig, sig, hsig, hsig, ?_⟩
  rw [approx_jaccard_score, countEq_self]
  have hne : sig.length ≠ 0 := by
    rw [hlen]
    simpa using hk
  exact div_self (by exact_mod_cast hne)

theorem identical_documents_similarity_one_witness :
    ∃ sig1 sig2,
      calculate_signature (generate_shingles ["a", "b"] 2 String.length)
        [fun x => x] = some sig1 ∧
      calculate_signature (generate_shingles ["a", "b"] 2 String.length)
        [fun x => x] = some sig2 ∧
      approx_jaccard_score sig1 sig2 = 1 :=
  identical_documents_similarity_one ["a", "b"] ["a", "b"] 2 String.length
    [fun x => x] rfl (List.cons_ne_nil _ _)

/-- C10: the Shingle Extractor always yields at least one fingerprint;
for `len(words) < count` it yields exactly one, the checksum of the
space-joined available tokens (the checksum of the empty string for an
empty sequence); hence `calculate_signature` fed from the extractor never
takes a minimum over an empty shingle collection. -/
theorem shingle_extractor_never_empty (words : List String) (count : Nat)
    (mapper : String → Nat) :
    generate_shingles words count mapper ≠ [] ∧
    (words.length < count →
      generate_shingles words count mapper = [mapper (String.intercalate " " words)]) ∧
    generate_shingles [] count mapper = [mapper ""] ∧
    ∀ hash_funcs : List (Nat → Nat),
      ∃ sig, calculate_signature (generate_shingles words count mapper) hash_funcs
        = some sig := by
  refine ⟨by simp [generate_shingles], ?_, ?_, ?_⟩
  · intro hlt
    have htake : words.take count = words := List.take_of_length_le (Nat.le_of_lt hlt)
    have hdrop : words.drop count = [] := List.drop_eq_nil_of_le (Nat.le_of_lt hlt)
    rw [generate_shingles, htake, hdrop, shingleLoop]
  · simp [generate_shingles, shingleLoop, String.intercalate]
  · intro hash_funcs
    rcases calculate_signature_spec (generate_shingles words count mapper) hash_funcs
      (by simp [generate_shingles]) with ⟨sig, hsig, -, -⟩
    exact ⟨sig, hsig⟩

theorem shingle_extractor_never_empty_witness :
    generate_shingles ["a"] 2 String.length ≠ [] ∧
    generate_shingles ["a"] 2 String.length
      = [String.length (String.intercalate " " ["a"])] ∧
    ∃ sig, calculate_signature (generate_shingles ["a"] 2 String.length)
      [fun x => x] = some sig := by
  obtain ⟨h1, h2, _h3, h4⟩ := shingle_extractor_never_empty ["a"] 2 String.length
  exact ⟨h1, h2 (by decide), h4 _⟩

/-! ## The hash family generator

The source line `coeffs = random.sample(range(2**32 - 1), count * 2)` uses
the literal `2**32 - 1` as the population bound and never reads the `max`
parameter, so the coefficient range cannot be configured and no check
against `max` is ever performed. -/

/-- C4 (evaluation at the failing input `count = 2`, `max = 2`): the list
`[5, 6, 7, 8]` is a legal result of the sampling call the code actually
makes (`random.sample(range(2**32 - 1), 4)`, see `samplePopulation`), and
on it the generator built with coefficient upper bound `B = max = 2`
returns two hash functions whose coefficients are NOT drawn from
`[0, 2)` — the `max` argument is ignored. -/
theorem hash_family_ignores_coefficient_bound :
    validSample samplePopulation (2 * 2) [5, 6, 7, 8] ∧
    generate_hash_funcs [5, 6, 7, 8] 2 2 4294969733 =
      [⟨8, 7, 4294969733⟩, ⟨6, 5, 4294969733⟩] ∧
    ¬ ∀ f ∈ generate_hash_funcs [5, 6, 7, 8] 2 2 4294969733, f.a < 2 ∧ f.b < 2 := by
  refine ⟨⟨by decide, by decide, by decide⟩, by decide, by decide⟩

/-- C7 (evaluation at the failing input `count = 2`, `max = 2`): although
`2 * count = 4` exceeds the configured bound `B = max = 2`, the generator
raises no configuration error: its sampling call draws from the fixed
population `range(2**32 - 1)` (which can supply `[0, 1, 2, 3]`), and the
generator silently returns a full family of `2` hash functions. -/
theorem hash_family_missing_configuration_check :
    2 * 2 > 2 ∧
    validSample samplePopulation (2 * 2) [0, 1, 2, 3] ∧
    generate_hash_funcs [0, 1, 2, 3] 2 2 4294969733 =
      [⟨3, 2, 4294969733⟩, ⟨1, 0, 4294969733⟩] := by
  refine ⟨by decide, ⟨by decide, by decide, by decide⟩, by decide⟩

/-! ## The shingle extractor's sliding window -/

/-- Re-taking the last `c` elements after appending commutes with first
truncating to the last `c` elements: only the last `c` elements of the
prefix can survive. -/
lemma lastN_append (c : Nat) (xs l : List String) :
    lastN c (lastN c xs ++ l) = lastN c (xs ++ l) := by
  unfold lastN
  have h1 : xs.drop (xs.length - c) ++ l = (xs ++ l).drop (xs.length - c) := by
    rw [List.drop_append_eq_append_drop]
    have h0 : xs.length - c - xs.length = 0 := by omega
    rw [h0, List.drop_zero]
  rw [h1, List.drop_drop]
  congr 1
  simp only [List.length_drop, List.length_append]
  omega

/-- Closed form of the shingle loop: the `i`-th yielded checksum is the
space-joined last `count` tokens of `memory` followed by the first `i+1`
remaining words. -/
lemma shingleLoop_closed (count : Nat) (mapper : String → Nat) :
    ∀ (ws memory : List String),
      shingleLoop count mapper memory ws =
        (List.range ws.length).map
          (fun i => mapper (String.intercalate " " (lastN count (memory ++ ws.take (i+1))))) := by
  intro ws
  induction ws with
  | nil => intro memory; rfl
  | cons w ws ih =>
    intro memory
    rw [shingleLoop, ih (dequeAppend count memory w)]
    have hr : (w :: ws).length = ws.length + 1 := rfl
    rw [hr, List.range_succ_eq_map, List.map_cons, List.map_map]
    refine congrArg₂ _ (by simp [dequeAppend]) ?_
    refine List.map_congr_left (fun i _hi => ?_)
    have harg : dequeAppend count memory w ++ ws.take (i+1)
        = lastN count (memory ++ [w]) ++ ws.take (i+1) := rfl
    simp only [Function.comp_apply, harg, lastN_append]
    have : memory ++ [w] ++ ws.take (i+1) = memory ++ (w :: ws).take (i + 1 + 1) := by
      simp [List.take_cons, List.append_assoc]
    rw [this]

/-- C3: for every token sequence `T` and window size `count ≥ 1` with
`count ≤ len(T)`, the Shingle Extractor yields exactly
`len(T) - count + 1` fingerprints, one per valid window position in
left-to-right order, the `i`-th being the checksum of the `count` tokens
`T[i], …, T[i+count-1]` joined by a single space. -/
theorem shingle_extractor_windows (T : List String) (count : Nat) (mapper : String → Nat)
    (h1 : 1 ≤ count) (h2 : count ≤ T.length) :
    (generate_shingles T count mapper).length = T.length - count + 1 ∧
    ∀ i, i ≤ T.length - count →
      (generate_shingles T count mapper).get? i
        = some (mapper (String.intercalate " " ((T.drop i).take count))) := by
  constructor
  · simp only [generate_shingles, List.length_cons, shingleLoop_closed,
      List.length_map, List.length_range, List.length_drop]
  · intro i hi
    cases i with
    | zero =>
      simp [generate_shingles]
    | succ i =>
      have him : i < T.length - count := by omega
      simp only [generate_shingles, List.get?_cons_succ, shingleLoop_closed, List.get?_map]
      have hrange : (List.range (T.drop count).length).get? i = some i := by
        rw [List.get?_range]
        simpa using him
      rw [hrange]
      have harg : T.take count ++ (T.drop count).take (i+1) = T.take (count + (i+1)) :=
        (List.take_add T count (i+1)).symm
      have hlen : (T.take (count + (i+1))).length = count + (i + 1) := by
        rw [List.length_take]
        omega
      have hwin : lastN count (T.take count ++ (T.drop count).take (i+1))
          = (T.drop (i+1)).take count := by
        rw [harg]
        unfold lastN
        rw [hlen]
        have h3 : count + (i + 1) - count = i + 1 := by omega
        rw [h3, List.drop_take]
        have h4 : count + (i + 1) - (i + 1) = count := by omega
        rw [h4]
      simp [hwin]

theorem shingle_extractor_windows_witness :
    (generate_shingles ["a", "b", "c"] 2 String.length).length = 2 ∧
    (generate_shingles ["a", "b", "c"] 2 String.length).get? 1
      = some (String.length
          (String.intercalate " " (((["a", "b", "c"] : List String).drop 1).take 2))) :=
  ⟨(shingle_extractor_windows ["a", "b", "c"] 2 String.length (by decide) (by decide)).1,
    (shingle_extractor_windows ["a", "b", "c"] 2 String.length (by decide) (by decide)).2
      1 (by decide)⟩

/-! ## The upper-triangular score matrix -/

lemma scoreRows_length (sigs : List (List Nat)) :
    (scoreRows sigs).length = sigs.length := by
  simp [scoreRows]

/-- Row `i` of the score matrix: the scores of signature `i` against all
later signatures. -/
lemma scoreRows_row (sigs : List (List Nat)) (i : Nat) (hi : i < sigs.length) :
    (scoreRows sigs)[i]? =
      some ((sigs.drop (i+1)).map (fun b => approx_jaccard_score (sigs.getD i []) b)) := by
  have hv : sigs[i]? = some (sigs.getD i []) := by
    simp [List.getD_eq_getElem?_getD, List.getElem?_eq_getElem hi]
  rw [scoreRows, List.getElem?_map, List.getElem?_enum, hv]
  rfl

/-- Row `i` of the score matrix, read with a default. -/
lemma scoreRows_getD_row (sigs : List (List Nat)) (i : Nat) (hi : i < sigs.length) :
    (scoreRows sigs).getD i []
      = (sigs.drop (i+1)).map (fun b => approx_jaccard_score (sigs.getD i []) b) := by
  rw [List.getD_eq_getElem?_getD, scoreRows_row sigs i hi]
  rfl

/-- Position `m` of row `i` of the score matrix holds the similarity of
signatures `i` and `i + 1 + m`. -/
lemma scoreRows_row_getD (sigs : List (List Nat)) (i m : Nat) (hi : i < sigs.length)
    (hm : m < sigs.length - (i+1)) :
    ((scoreRows sigs).getD i []).getD m 0
      = approx_jaccard_score (sigs.getD i []) (sigs.getD (i + 1 + m) []) := by
  rw [scoreRows_getD_row sigs i hi, List.getD_eq_getElem?_getD, List.getElem?_map,
    List.getElem?_drop]
  have hjv : sigs[i + 1 + m]? = some (sigs.getD (i + 1 + m) []) := by
    have hb : i + 1 + m < sigs.length := by omega
    simp [List.getD_eq_getElem?_getD, List.getElem?_eq_getElem hb]
  rw [hjv]
  rfl

/-- The stored entry `scores[i][j-i-1]` for `i < j < n` is exactly the
similarity of signatures `i` and `j`. -/
lemma scoreRows_entry (sigs : List (List Nat)) (i j : Nat) (hij : i < j)
    (hj : j < sigs.length) :
    ((scoreRows sigs).getD i []).getD (j - i - 1) 0
      = approx_jaccard_score (sigs.getD i []) (sigs.getD j []) := by
  have hi : i < sigs.length := lt_trans hij hj
  have h := scoreRows_row_getD sigs i (j - i - 1) hi (by omega)
  have hidx : i + 1 + (j - i - 1) = j := by omega
  rwa [hidx] at h

/-- Positions of a `Nodup` list holding equal values are equal. -/
lemma getD_inj (l : List String) (hnd : l.Nodup) {i i' : Nat}
    (hi : i < l.length) (hi' : i' < l.length)
    (h : l.getD i "" = l.getD i' "") : i = i' := by
  have e1 : l.getD i "" = l[i] := by
    simp [List.getD_eq_getElem?_getD, List.getElem?_eq_getElem hi]
  have e2 : l.getD i' "" = l[i'] := by
    simp [List.getD_eq_getElem?_getD, List.getElem?_eq_getElem hi']
  rw [e1, e2] at h
  exact (List.Nodup.getElem_inj_iff hnd).mp h

/-- C5: the candidate duplicate pair report contains exactly those pairs
`(id_i, id_j)` with `i < j` whose similarity score `s` satisfies
`threshold < s < 1`; in particular every pair with score exactly `1` and
every pair with score exactly equal to the threshold is excluded. -/
theorem candidate_report_exact (sigs : List (List Nat)) (ids : List String) (t : ℚ)
    (hlen : ids.length = sigs.length) (hnd : ids.Nodup) :
    (∀ a b : String,
      (a, b) ∈ report ids (scoreRows sigs) t ↔
        ∃ i j, i < j ∧ j < sigs.length ∧ a = ids.getD i "" ∧ b = ids.getD j "" ∧
          t < approx_jaccard_score (sigs.getD i []) (sigs.getD j []) ∧
          approx_jaccard_score (sigs.getD i []) (sigs.getD j []) < 1) ∧
    (∀ i j, i < j → j < sigs.length →
      approx_jaccard_score (sigs.getD i []) (sigs.getD j []) = 1 →
      (ids.getD i "", ids.getD j "") ∉ report ids (scoreRows sigs) t) ∧
    (∀ i j, i < j → j < sigs.length →
      approx_jaccard_score (sigs.getD i []) (sigs.getD j []) = t →
      (ids.getD i "", ids.getD j "") ∉ report ids (scoreRows sigs) t) := by
  have hmem : ∀ a b : String,
      (a, b) ∈ report ids (scoreRows sigs) t ↔
        ∃ i j, i < j ∧ j < sigs.length ∧ a = ids.getD i "" ∧ b = ids.getD j "" ∧
          t < approx_jaccard_score (sigs.getD i []) (sigs.getD j []) ∧
          approx_jaccard_score (sigs.getD i []) (sigs.getD j []) < 1 := by
    intro a b
    constructor
    · intro h
      simp only [report, List.mem_flatMap, List.mem_range, List.mem_filterMap,
        List.mem_range', scoreRows_length] at h
      obtain ⟨i, hi, j, ⟨d, hd, hjd⟩, hsome⟩ := h
      have hij : i < j := by omega
      have hj : j < sigs.length := by omega
      rw [scoreRows_entry sigs i j hij hj] at hsome
      by_cases hcond : t < approx_jaccard_score (sigs.getD i []) (sigs.getD j []) ∧
          approx_jaccard_score (sigs.getD i []) (sigs.getD j []) < 1
      · rw [if_pos hcond] at hsome
        simp only [Option.some.injEq, Prod.mk.injEq] at hsome
        exact ⟨i, j, hij, hj, hsome.1.symm, hsome.2.symm, hcond.1, hcond.2⟩
      · rw [if_neg hcond] at hsome
        exact absurd hsome (by simp)
    · rintro ⟨i, j, hij, hj, ha, hb, ht, h1⟩
      have hi : i < sigs.length := lt_trans hij hj
      simp only [report, List.mem_flatMap, List.mem_range, List.mem_filterMap,
        List.mem_range', scoreRows_length]
      refine ⟨i, hi, j, ⟨j - (i+1), by omega, by omega⟩, ?_⟩
      rw [scoreRows_entry sigs i j hij hj, if_pos ⟨ht, h1⟩, ha, hb]
  refine ⟨hmem, ?_, ?_⟩
  · intro i j hij hj h1 hin
    obtain ⟨i', j', hij', hj', ha, hb, ht', hlt⟩ := (hmem _ _).mp hin
    have hi : i < sigs.length := lt_trans hij hj
    have hi' : i' < sigs.length := lt_trans hij' hj'
    have hieq : i = i' := getD_inj ids hnd (by omega) (by omega) ha
    have hjeq : j = j' := getD_inj ids hnd (by omega) (by omega) hb
    rw [← hieq, ← hjeq, h1] at hlt
    exact absurd hlt (lt_irrefl 1)
  · intro i j hij hj heq hin
    obtain ⟨i', j', hij', hj', ha, hb, ht', hlt⟩ := (hmem _ _).mp hin
    have hi : i < sigs.length := lt_trans hij hj
    have hi' : i' < sigs.length := lt_trans hij' hj'
    have hieq : i = i' := getD_inj ids hnd (by omega) (by omega) ha
    have hjeq : j = j' := getD_inj ids hnd (by omega) (by omega) hb
    rw [← hieq, ← hjeq, heq] at ht'
    exact absurd ht' (lt_irrefl t)

theorem candidate_report_exact_witness :
    ("a", "c") ∉ report ["a", "b", "c"] (scoreRows [[1, 2], [1, 3], [1, 2]]) (1/2) ∧
    ("a", "b") ∉ report ["a", "b", "c"] (scoreRows [[1, 2], [1, 3], [1, 2]]) (1/2) := by
  obtain ⟨_hm, hone, hthr⟩ := candidate_report_exact [[1, 2], [1, 3], [1, 2]]
    ["a", "b", "c"] (1/2) rfl (by decide)
  exact ⟨hone 0 2 (by decide) (by decide) (by decide),
    hthr 0 1 (by decide) (by decide) (by decide)⟩

/-- C6 (counterexample): with three signatures `[[1], [2], [1]]`, reading
the diagonal entry `(0, 0)` through the documented access pattern
`scores[x][y-x-1]`, i.e. index `0 - 0 - 1 = -1` into row `0`, is NOT an
error: Python/numpy negative indexing silently wraps around and returns
`1`, the stored score of the pair `(0, 2)` — so the claimed defined-error
behavior is refuted. -/
theorem matrix_negative_access_counterexample :
    npIndex ((scoreRows [[1], [2], [1]]).getD 0 []) ((0 : Int) - 0 - 1)
      = some (approx_jaccard_score [1] [1]) ∧
    npIndex ((scoreRows [[1], [2], [1]]).getD 0 []) ((0 : Int) - 0 - 1) ≠ none := by
  exact ⟨by decide, by decide⟩

/-- C6 (amended): reading an entry for `(x, x)`, or `(x, y)` with
`y < x`, through `scores[x][y-x-1]` computes a negative index; when
`x + 1 - y` is at most the row length `n - 1 - x`, indexing silently
wraps around and returns the stored score of the pair
`(x, n + y - x - 1)` — not an error — and only when `x + 1 - y` exceeds
the row length (e.g. on the last row) does it raise `IndexError`
(modelled as `none`). -/
theorem matrix_negative_access_behavior (sigs : List (List Nat)) (x y : Nat)
    (hyx : y ≤ x) (hx : x < sigs.length) :
    (x + 1 - y ≤ sigs.length - 1 - x →
      npIndex ((scoreRows sigs).getD x []) ((y : Int) - (x : Int) - 1)
        = some (approx_jaccard_score (sigs.getD x [])
            (sigs.getD (sigs.length + y - x - 1) []))) ∧
    (sigs.length - 1 - x < x + 1 - y →
      npIndex ((scoreRows sigs).getD x []) ((y : Int) - (x : Int) - 1) = none) := by
  have hrowlen : ((scoreRows sigs).getD x []).length = sigs.length - (x + 1) := by
    rw [scoreRows_getD_row sigs x hx]
    simp
  have hneg : (y : Int) - (x : Int) - 1 < 0 := by omega
  constructor
  · intro hA
    simp only [npIndex, hrowlen]
    rw [if_pos hneg]
    have h0 : (0 : Int) ≤ (y : Int) - (x : Int) - 1 + ((sigs.length - (x + 1) : Nat) : Int)
        := by omega
    have h1 : (y : Int) - (x : Int) - 1 + ((sigs.length - (x + 1) : Nat) : Int)
        < ((sigs.length - (x + 1) : Nat) : Int) := by omega
    rw [if_pos ⟨h0, h1⟩]
    have hm : ((y : Int) - (x : Int) - 1 + ((sigs.length - (x + 1) : Nat) : Int)).toNat
        < sigs.length - (x + 1) := by omega
    rw [scoreRows_row_getD sigs x _ hx hm]
    have hidx : x + 1 + ((y : Int) - (x : Int) - 1
        + ((sigs.length - (x + 1) : Nat) : Int)).toNat = sigs.length + y - x - 1 := by
      omega
    rw [hidx]
  · intro hB
    simp only [npIndex, hrowlen]
    rw [if_pos hneg]
    rw [if_neg]
    rintro ⟨h0, -⟩
    omega

theorem matrix_negative_access_behavior_witness :
    npIndex ((scoreRows [[1], [2], [1]]).getD 0 []) ((0 : Int) - (0 : Int) - 1)
      = some (approx_jaccard_score (([[1], [2], [1]] : List (List Nat)).getD 0 [])
          (([[1], [2], [1]] : List (List Nat)).getD 2 [])) ∧
    npIndex ((scoreRows [[1], [2], [1]]).getD 2 []) ((2 : Int) - (2 : Int) - 1) = none :=
  ⟨(matrix_negative_access_behavior [[1], [2], [1]] 0 0 (by decide) (by decide)).1
      (by decide),
    (matrix_negative_access_behavior [[1], [2], [1]] 2 2 (by decide) (by decide)).2
      (by decide)⟩

/-! ## The histogram pass -/

/-- The similarity score is within `[0, 1]` whenever the first signature is
nonempty (the source would raise `ZeroDivisionError` otherwise). -/
lemma approx_jaccard_score_bounds (a b : List Nat) (ha : a.length ≠ 0) :
    0 ≤ approx_jaccard_score a b ∧ approx_jaccard_score a b ≤ 1 := by
  have hpos : (0 : ℚ) < (a.length : ℚ) := by exact_mod_cast Nat.pos_of_ne_zero ha
  constructor
  · exact div_nonneg (by positivity) (le_of_lt hpos)
  · rw [approx_jaccard_score, div_le_one hpos]
    exact_mod_cast countEq_le_length a b

/-- All entries of the score matrix lie in `[0, 1]` when all signatures
share a positive length. -/
lemma scoreRows_rows_unit (sigs : List (List Nat)) (k : Nat) (hk : 0 < k)
    (hsig : ∀ s ∈ sigs, s.length = k) :
    ∀ row ∈ scoreRows sigs, ∀ q ∈ row, 0 ≤ q ∧ q ≤ 1 := by
  intro row hrow q hq
  rcases List.mem_map.mp hrow with ⟨ia, hia, rfl⟩
  obtain ⟨i, a⟩ := ia
  rcases List.mem_map.mp hq with ⟨b, _hb, rfl⟩
  have ha : a ∈ sigs := by
    rw [List.enum_eq_zip_range] at hia
    exact (List.of_mem_zip hia).2
  have hlen : a.length = k := hsig a ha
  exact approx_jaccard_score_bounds a b (by omega)

lemma sum_map_add_nat {α : Type} (l : List α) (f g : α → Nat) :
    (l.map (fun a => f a + g a)).sum = (l.map f).sum + (l.map g).sum := by
  induction l with
  | nil => rfl
  | cons x l ih =>
    simp only [List.map_cons, List.sum_cons, ih]
    omega

lemma sum_map_one {α : Type} (l : List α) : (l.map (fun _ => 1)).sum = l.length := by
  induction l with
  | nil => rfl
  | cons x l ih =>
    simp only [List.map_cons, List.sum_cons, ih, List.length_cons]
    omega

lemma sum_map_ite_count {α : Type} (l : List α) (p : α → Bool) :
    (l.map (fun a => if p a then 1 else 0)).sum = l.countP p := by
  induction l with
  | nil => rfl
  | cons x l ih =>
    by_cases hx : p x <;> simp [List.countP_cons, hx, ih] <;> omega

/-- If every value lies in exactly one of `n` bins, the bin counts sum to
the number of values. -/
lemma sum_countP_eq_length (values : List ℚ) (n : Nat) (P : Nat → ℚ → Bool)
    (hone : ∀ v ∈ values, (List.range n).countP (fun j => P j v) = 1) :
    ((List.range n).map (fun j => values.countP (P j))).sum = values.length := by
  induction values with
  | nil => simp
  | cons v vs ih =>
    have hmap : (List.range n).map (fun j => (v :: vs).countP (P j))
        = (List.range n).map (fun j => vs.countP (P j) + (if P j v then 1 else 0)) :=
      List.map_congr_left (fun j _ => by rw [List.countP_cons])
    rw [hmap, sum_map_add_nat, sum_map_ite_count, hone v (List.mem_cons_self v vs),
      ih (fun w hw => hone w (List.mem_cons_of_mem v hw))]
    simp

/-- Each of the eleven possible truncated scores `m / 10` falls in exactly
one bin of `binsList` (`m = 10`, i.e. score `1`, falls in the closed last
real bin `[1, 42]`). -/
lemma binPred_unique : ∀ m : Nat, m < 11 →
    (List.range 11).countP (fun j => binPred binsList j ((m : ℚ) / 10)) = 1 := by
  decide

/-- Truncated scores of values in `[0, 1]` have the form `m / 10` with
`m ≤ 10`. -/
lemma binValues_mem_form (row : List ℚ) (hrange : ∀ s ∈ row, 0 ≤ s ∧ s ≤ 1) :
    ∀ v ∈ binValues row, ∃ m : Nat, m < 11 ∧ v = (m : ℚ) / 10 := by
  intro v hv
  rcases List.mem_map.mp hv with ⟨s, hs, rfl⟩
  obtain ⟨h0, h1⟩ := hrange s hs
  have hnn : (0 : ℚ) ≤ s * 10 := by positivity
  have hfl0 : 0 ≤ ⌊s * 10⌋ := Int.floor_nonneg.mpr hnn
  have hle : s * 10 ≤ 10 := by linarith
  have hfl10 : ⌊s * 10⌋ ≤ 10 := by
    have hm := Int.floor_mono hle
    rwa [show ⌊(10 : ℚ)⌋ = 10 from by norm_num] at hm
  refine ⟨⌊s * 10⌋.toNat, by omega, ?_⟩
  rw [npTruncInt, if_pos hnn]
  congr 1
  rw [← Int.cast_natCast, Int.toNat_of_nonneg hfl0]

/-- One histogram call over one row of scores in `[0, 1]` counts every
entry exactly once. -/
lemma hist_row_sum (row : List ℚ) (hrange : ∀ s ∈ row, 0 ≤ s ∧ s ≤ 1) :
    (histogramCounts (binValues row) binsList).sum = row.length := by
  have h11 : binsList.length - 1 = 11 := rfl
  rw [histogramCounts, h11, sum_countP_eq_length (binValues row) 11
    (fun j v => binPred binsList j v) ?_]
  · simp [binValues]
  · intro v hv
    rcases binValues_mem_form row hrange v hv with ⟨m, hm, rfl⟩
    exact binPred_unique m hm

/-- `histUpdate` with a key matching no entry leaves the table unchanged. -/
lemma histUpdate_of_countP_zero (h : List (ℚ × Nat)) (key : ℚ) (c : Nat)
    (hz : h.countP (fun e => decide (e.1 = key)) = 0) :
    histUpdate h key c = h := by
  induction h with
  | nil => rfl
  | cons p h ih =>
    rw [List.countP_eq_zero] at hz
    have hp : ¬ p.1 = key := by simpa using hz p (List.mem_cons_self _ _)
    have hz' : h.countP (fun e => decide (e.1 = key)) = 0 := by
      rw [List.countP_eq_zero]
      exact fun a ha => hz a (List.mem_cons_of_mem _ ha)
    have hupd : histUpdate (p :: h) key c = p :: histUpdate h key c := by
      simp [histUpdate, hp]
    rw [hupd, ih hz']

/-- `hist[key] += c` adds exactly `c` to the total when `key` labels
exactly one entry. -/
lemma histTotal_histUpdate_one (h : List (ℚ × Nat)) (key : ℚ) (c : Nat)
    (hcnt : h.countP (fun e => decide (e.1 = key)) = 1) :
    histTotal (histUpdate h key c) = histTotal h + c := by
  induction h with
  | nil => simp at hcnt
  | cons p h ih =>
    have hcons : histUpdate (p :: h) key c
        = (if p.1 = key then (p.1, p.2 + c) else p) :: histUpdate h key c := by
      simp [histUpdate]
    have htot : ∀ (q : ℚ × Nat) (l : List (ℚ × Nat)),
        histTotal (q :: l) = q.2 + histTotal l := by
      intro q l
      simp [histTotal]
    by_cases hp : p.1 = key
    · rw [List.countP_cons_of_pos _ _ (by simpa using hp)] at hcnt
      have hz : h.countP (fun e => decide (e.1 = key)) = 0 := by omega
      rw [hcons, if_pos hp, htot, histUpdate_of_countP_zero h key c hz, htot]
      omega
    · rw [List.countP_cons_of_neg _ _ (by simpa using hp)] at hcnt
      rw [hcons, if_neg hp, htot, ih hcnt, htot]
      omega

/-- `histUpdate` never changes how many entries carry a given key. -/
lemma histUpdate_countP (h : List (ℚ × Nat)) (key : ℚ) (c : Nat) (key' : ℚ) :
    (histUpdate h key c).countP (fun e => decide (e.1 = key'))
      = h.countP (fun e => decide (e.1 = key')) := by
  induction h with
  | nil => rfl
  | cons p h ih =>
    have hcons : histUpdate (p :: h) key c
        = (if p.1 = key then (p.1, p.2 + c) else p) :: histUpdate h key c := by
      simp [histUpdate]
    rw [hcons, List.countP_cons, List.countP_cons, ih]
    by_cases hp : p.1 = key <;> simp [hp]

lemma countP_fold_pairs (pairs : List (ℚ × Nat)) :
    ∀ (h : List (ℚ × Nat)) (key : ℚ),
      (pairs.foldl (fun h3 pc => histUpdate h3 pc.1 pc.2) h).countP
          (fun e => decide (e.1 = key))
        = h.countP (fun e => decide (e.1 = key)) := by
  induction pairs with
  | nil =>
    intro h key
    rfl
  | cons pc pairs ih =>
    intro h key
    rw [List.foldl_cons, ih, histUpdate_countP]

/-- Accumulating a list of `(key, count)` pairs whose keys each label
exactly one entry adds the sum of the counts to the total. -/
lemma histTotal_fold (pairs : List (ℚ × Nat)) :
    ∀ h : List (ℚ × Nat),
      (∀ p ∈ pairs, h.countP (fun e => decide (e.1 = p.1)) = 1) →
      histTotal (pairs.foldl (fun h3 pc => histUpdate h3 pc.1 pc.2) h)
        = histTotal h + (pairs.map Prod.snd).sum := by
  induction pairs with
  | nil =>
    intro h _
    simp
  | cons pc pairs ih =>
    intro h hcnt
    rw [List.foldl_cons, ih _ ?_]
    · rw [histTotal_histUpdate_one h pc.1 pc.2 (hcnt pc (List.mem_cons_self _ _))]
      simp only [List.map_cons, List.sum_cons]
      omega
    · intro p hp
      rw [histUpdate_countP]
      exact hcnt p (List.mem_cons_of_mem _ hp)

/-- Folding the per-row histogram updates over any table in which each of
the eleven dictionary keys labels exactly one entry adds one unit per
matrix entry. -/
lemma fold_rows_total :
    ∀ (rows : List (List ℚ)) (h : List (ℚ × Nat)),
      (∀ row ∈ rows, ∀ s ∈ row, 0 ≤ s ∧ s ≤ 1) →
      (∀ key ∈ histKeys, h.countP (fun e => decide (e.1 = key)) = 1) →
      histTotal (rows.foldl
          (fun h2 row =>
            (binsList.zip (histogramCounts (binValues row) binsList)).foldl
              (fun h3 pc => histUpdate h3 pc.1 pc.2) h2) h)
        = histTotal h + (rows.map List.length).sum := by
  intro rows
  induction rows with
  | nil =>
    intro h _ _
    simp
  | cons row rows ih =>
    intro h hrange hinv
    have hcounts_len : (histogramCounts (binValues row) binsList).length = 11 := by
      simp only [histogramCounts, List.length_map, List.length_range]
      rfl
    have hzip : binsList.zip (histogramCounts (binValues row) binsList)
        = histKeys.zip (histogramCounts (binValues row) binsList) := by
      generalize hg : histogramCounts (binValues row) binsList = cnts at hcounts_len ⊢
      have hb : binsList = histKeys ++ [(42 : ℚ)] := rfl
      have hc : cnts = cnts ++ ([] : List Nat) := by simp
      rw [hb]
      nth_rewrite 1 [hc]
      rw [List.zip_append (by rw [hcounts_len]; rfl)]
      simp
    have hkeys : ∀ p ∈ binsList.zip (histogramCounts (binValues row) binsList),
        p.1 ∈ histKeys := by
      intro p hp
      rw [hzip] at hp
      obtain ⟨p1, p2⟩ := p
      exact (List.of_mem_zip hp).1
    have hstep : histTotal
        ((binsList.zip (histogramCounts (binValues row) binsList)).foldl
          (fun h3 pc => histUpdate h3 pc.1 pc.2) h)
        = histTotal h + row.length := by
      rw [histTotal_fold _ h (fun p hp => hinv p.1 (hkeys p hp))]
      rw [hzip, List.map_snd_zip _ _ (by rw [hcounts_len]; decide)]
      rw [hist_row_sum row (hrange row (List.mem_cons_self _ _))]
    have hinv' : ∀ key ∈ histKeys,
        ((binsList.zip (histogramCounts (binValues row) binsList)).foldl
            (fun h3 pc => histUpdate h3 pc.1 pc.2) h).countP
          (fun e => decide (e.1 = key)) = 1 := by
      intro key hk
      rw [countP_fold_pairs]
      exact hinv key hk
    rw [List.foldl_cons, ih _ (fun r hr => hrange r (List.mem_cons_of_mem _ hr)) hinv',
      hstep]
    simp only [List.map_cons, List.sum_cons]
    omega

/-- The histogram pass counts every matrix entry exactly once. -/
lemma histogramPass_total (rows : List (List ℚ))
    (hrange : ∀ row ∈ rows, ∀ s ∈ row, 0 ≤ s ∧ s ≤ 1) :
    histTotal (histogramPass rows) = (rows.map List.length).sum := by
  have h := fold_rows_total rows (histKeys.map (fun k => (k, 0))) hrange (by decide)
  have h0 : histTotal (histKeys.map (fun k => (k, 0))) = 0 := by decide
  rw [histogramPass, h, h0, Nat.zero_add]

/-- Row `i` of the score matrix has `n - (i+1)` entries. -/
lemma scoreRows_map_length (sigs : List (List Nat)) :
    (scoreRows sigs).map List.length
      = (List.range sigs.length).map (fun i => sigs.length - (i + 1)) := by
  rw [scoreRows, List.enum_eq_zip_range, List.map_map]
  have hfun : (List.length ∘ fun ia : Nat × List Nat =>
      (sigs.drop (ia.1 + 1)).map (fun b => approx_jaccard_score ia.2 b))
      = (fun i => sigs.length - (i + 1)) ∘ Prod.fst := by
    funext ia
    simp [Function.comp]
  rw [hfun, ← List.map_map, List.map_fst_zip _ _ (by simp)]

/-- Gauss: the row lengths of the strict upper triangle sum to
`n * (n-1) / 2` (stated multiplied by two to stay in `ℕ`). -/
lemma sum_range_pred (n : Nat) :
    (((List.range n).map (fun i => n - (i + 1))).sum) * 2 = n * (n - 1) := by
  induction n with
  | zero => rfl
  | succ n ih =>
    rw [List.range_succ, List.map_append, List.sum_append]
    have hcong : (List.range n).map (fun i => n + 1 - (i + 1))
        = (List.range n).map (fun i => (n - (i + 1)) + 1) :=
      List.map_congr_left (fun i hi => by
        have := List.mem_range.mp hi
        omega)
    rw [hcong, sum_map_add_nat, sum_map_one, List.length_range]
    simp only [List.map_cons, List.map_nil, List.sum_cons, List.sum_nil]
    have htail : n + 1 - (n + 1) = 0 := by omega
    rw [htail]
    cases n with
    | zero => simp
    | succ m =>
      rw [show m + 1 + 1 - 1 = m + 1 from rfl]
      rw [show m + 1 - 1 = m from rfl] at ih
      zify at ih ⊢
      linear_combination ih

/-- C8: for every corpus whose signatures all share a positive length
`k`, the histogram pass over the upper-triangular similarity matrix
produces bucket counts summing to `n * (n-1) / 2`, the number of
unordered document pairs. -/
theorem histogram_total_pairs (sigs : List (List Nat)) (k : Nat) (hk : 0 < k)
    (hsig : ∀ s ∈ sigs, s.length = k) :
    histTotal (histogramPass (scoreRows sigs))
      = sigs.length * (sigs.length - 1) / 2 := by
  rw [histogramPass_total _ (scoreRows_rows_unit sigs k hk hsig), scoreRows_map_length]
  rw [← sum_range_pred sigs.length]
  omega

theorem histogram_total_pairs_witness :
    histTotal (histogramPass (scoreRows [[1], [2], [1]])) = 3 * (3 - 1) / 2 :=
  histogram_total_pairs [[1], [2], [1]] 1 (by decide) (by decide)

end MinHash
